import Mathlib

/-!
# Verification of the Pick Optimization Engine

A shallow embedding, in Lean 4, of the decision logic of the
`oski-football-pool` repository, together with theorems settling the
frozen claims about its specification.

Embedded components (each definition is a direct translation of the
named Python function):

* `football_pool/models.py` — the `Pick` dataclass and its
  `__post_init__` validation (`mkPick`).
* `football_pool/core.py` — `_determine_strategy`, the four per-strategy
  pick generators, and `_apply_fibonacci_assignment`.
* `football_pool/value_optimization.py` — `_calculate_value_score` and
  `optimize_confidence_allocation`.
* `football_pool/multi_llm_analyzer.py` — `combine_analyses` with its
  three modes `_consensus_combination`, `_weighted_combination`,
  `_best_combination`.

Python numbers are modelled as `ℚ` (all constants in the source are
decimal literals), Python strings as `String` or `List Char`, Python
dicts (which preserve insertion order) as association lists, and Python
exceptions as `Except String`.
-/

namespace FootballPool

/-! ## Python built-in helpers -/

/-- Python `min(a, b)` on numbers. -/
def pyMin (a b : ℚ) : ℚ := if a ≤ b then a else b

/-- Python `max(a, b)` on numbers. -/
def pyMax (a b : ℚ) : ℚ := if b ≤ a then a else b

/-- Python `int(q)`: truncation toward zero. -/
def pyInt (q : ℚ) : ℤ := if 0 ≤ q then ⌊q⌋ else -⌊-q⌋

/-- Python `s.lower()` as a character list (`str.lower`, ASCII case). -/
def lowerL (s : String) : List Char := s.toList.map Char.toLower

/-- Auxiliary for `containsSub`: list prefix test. -/
def isPrefixOfL : List Char → List Char → Bool
  | [], _ => true
  | _ :: _, [] => false
  | a :: as, b :: bs => a == b && isPrefixOfL as bs

/-- Python `needle in haystack` on strings: substring containment. -/
def containsSub (needle : List Char) : List Char → Bool
  | [] => needle.isEmpty
  | c :: rest => isPrefixOfL needle (c :: rest) || containsSub needle rest

/-- Stable insertion for `sortByDesc`. -/
def insertByDesc {α : Type} (key : α → ℚ) (a : α) : List α → List α
  | [] => [a]
  | b :: bs => if key b ≤ key a then a :: b :: bs else b :: insertByDesc key a bs

/-- Python `sorted(l, key=key, reverse=True)` / `l.sort(key=key, reverse=True)`:
a stable sort, descending in `key`; elements with equal keys keep their
original relative order.  (Any stable descending sort computes the same
list, so this structural insertion sort is extensionally Python's
Timsort.) -/
def sortByDesc {α : Type} (key : α → ℚ) : List α → List α
  | [] => []
  | a :: as => insertByDesc key a (sortByDesc key as)

/-- Python first-occurrence de-duplication with a `seen` set
(`if game not in seen: seen.add(game); unique.append(game)`). -/
def dedupFirstAux (seen : List String) : List String → List String
  | [] => []
  | x :: xs => if x ∈ seen then dedupFirstAux seen xs else x :: dedupFirstAux (x :: seen) xs

/-- Python `d.get(k, default)` for a numeric-valued dict. -/
def dictGet (d : List (String × ℚ)) (k : String) (default : ℚ) : ℚ :=
  ((d.find? (fun e => e.1 == k)).map (·.2)).getD default

/-! ## `football_pool/models.py` — the `Pick` dataclass -/

/-- `models.Pick`: one game pick.  Fields beyond those used by the
engine's decision logic (`actual_winner`, `hit`, `points_earned`,
`week`, `strategy_tag`) carry no logic and are omitted. -/
structure Pick where
  game : String
  predicted_winner : String
  confidence_points : ℤ
  conf : Option ℚ := none
  spread : Option ℚ := none
  public_pct : Option ℚ := none
deriving Repr, DecidableEq

/-- Python truthiness of the optional `conf` field (`if self.conf and …`):
`None` and `0` are falsy. -/
def pyTruthy : Option ℚ → Bool
  | none => false
  | some x => decide (x ≠ 0)

/-- `Pick.__post_init__`: constructing a `Pick` validates
`confidence_points ∈ [1, 20]` and, when `conf` is truthy,
`conf ∈ [0, 100]`; a violation raises `ValueError`. -/
def mkPick (game predicted_winner : String) (confidence_points : ℤ)
    (conf : Option ℚ := none) (spread : Option ℚ := none)
    (public_pct : Option ℚ := none) : Except String Pick :=
  if confidence_points < 1 ∨ confidence_points > 20 then
    .error "Confidence points must be between 1 and 20"
  else if pyTruthy conf ∧ (conf.getD 0 < 0 ∨ conf.getD 0 > 100) then
    .error "Confidence percentage must be between 0 and 100"
  else
    .ok { game := game, predicted_winner := predicted_winner,
          confidence_points := confidence_points, conf := conf,
          spread := spread, public_pct := public_pct }

/-! ## `football_pool/core.py` — strategy selection -/

/-- `PoolDominationSystem._determine_strategy`, as a function of the
pool deficit `self.pool_position.points_behind_leader`. -/
def determine_strategy (deficit : ℚ) : String :=
  if deficit < -30 then "protective"
  else if deficit < 0 then "balanced"
  else if deficit < 50 then "high_variance"
  else "maximum_variance"

/-! ## `football_pool/core.py` — per-strategy pick generation

Game identifiers are handled as character lists so that Python's
`game.split("@")` can be modelled exactly. -/

/-- Python `game.split("@")`.  `"".split("@") == [""]`,
`"A@B".split("@") == ["A","B"]`, `"A@B@C".split("@") == ["A","B","C"]`. -/
def pySplitAt : List Char → List (List Char)
  | [] => [[]]
  | c :: rest =>
    if c = '@' then [] :: pySplitAt rest
    else
      match pySplitAt rest with
      | [] => [[c]]
      | p :: ps => (c :: p) :: ps

/-- `_generate_balanced_picks`, body of the per-game loop: a game
containing no `'@'` is silently skipped (`none`); `away, home =
game.split("@")` raises `ValueError` when the split does not have
exactly two parts; otherwise ratings are looked up with default `50`,
the home side gets `+3`, and a `Pick` is built. -/
def process_balanced_game (ratings : List (String × ℚ)) (game : List Char) :
    Except String (Option Pick) :=
  if '@' ∈ game then
    match pySplitAt game with
    | [away, home] =>
      let away_rating := dictGet ratings ⟨away⟩ 50
      let home_rating := dictGet ratings ⟨home⟩ 50 + 3
      let rating_diff := |home_rating - away_rating|
      let confidence := 50 + pyMin 35 (rating_diff * 1.5)
      let predicted_winner := if away_rating < home_rating then home else away
      (mkPick ⟨game⟩ ⟨predicted_winner⟩ 1 (some confidence)
        (some (home_rating - away_rating)) (some 50)).map some
    | _ => .error "ValueError: too many values to unpack"
  else
    .ok none

/-- `_generate_protective_picks`, body of the per-game loop: same
parsing as the balanced variant, but games with `|home − away| ≤ 5`
(after the home bonus) are skipped and the confidence formula is
`min(85, 50 + 2·diff)`. -/
def process_protective_game (ratings : List (String × ℚ)) (game : List Char) :
    Except String (Option Pick) :=
  if '@' ∈ game then
    match pySplitAt game with
    | [away, home] =>
      let away_rating := dictGet ratings ⟨away⟩ 50
      let home_rating := dictGet ratings ⟨home⟩ 50 + 3
      if away_rating + 5 < home_rating then
        (mkPick ⟨game⟩ ⟨home⟩ 1 (some (pyMin 85 (50 + (home_rating - away_rating) * 2)))
          (some (home_rating - away_rating)) (some 50)).map some
      else if home_rating + 5 < away_rating then
        (mkPick ⟨game⟩ ⟨away⟩ 1 (some (pyMin 85 (50 + (away_rating - home_rating) * 2)))
          (some (home_rating - away_rating)) (some 50)).map some
      else
        .ok none
    | _ => .error "ValueError: too many values to unpack"
  else
    .ok none

/-- The `for game in games` loop shared by the generators: accumulate
the non-skipped picks in order, propagating the first raised error. -/
def generate_picks_loop (process : List Char → Except String (Option Pick)) :
    List (List Char) → Except String (List Pick)
  | [] => .ok []
  | g :: gs => do
    let p? ← process g
    let rest ← generate_picks_loop process gs
    match p? with
    | some p => pure (p :: rest)
    | none => pure rest

/-- `_generate_balanced_picks` (the trailing `picks[:20]` included). -/
def generate_balanced_picks (ratings : List (String × ℚ)) (games : List (List Char)) :
    Except String (List Pick) :=
  (generate_picks_loop (process_balanced_game ratings) games).map (·.take 20)

/-- `_generate_protective_picks` (the trailing `picks[:20]` included). -/
def generate_protective_picks (ratings : List (String × ℚ)) (games : List (List Char)) :
    Except String (List Pick) :=
  (generate_picks_loop (process_protective_game ratings) games).map (·.take 20)

/-- `_generate_high_variance_picks`, scoring of one parsed game. The
two random draws are explicit parameters: `variance` is the
`random.uniform(-10, 10)` sample (added to both ratings), `flip` is
`random.random() < 0.3` (pick the lower-rated side).  Returns
`(predicted_winner, confidence, spread)`. -/
def score_high_variance_game (away_rating home_rating : ℚ) (variance : ℚ)
    (flip : Bool) (away home : String) : String × ℚ × ℚ :=
  let home_r := home_rating + 3
  let away_v := away_rating + variance
  let home_v := home_r + variance
  let rating_diff := |home_v - away_v|
  let confidence := 50 + pyMin 40 (rating_diff * 1.2)
  let predicted_winner :=
    if flip then (if away_v < home_v then away else home)
    else (if away_v < home_v then home else away)
  (predicted_winner, confidence, home_v - away_v)

/-- `_generate_maximum_variance_picks`, scoring of one parsed game.
`variance` is the `random.uniform(-20, 20)` sample, `flip` is
`random.random() < 0.6`, and `conf_draw` is the
`random.uniform(60, 90)` confidence sample.  Returns
`(predicted_winner, confidence, spread)`. -/
def score_maximum_variance_game (away_rating home_rating : ℚ) (variance : ℚ)
    (flip : Bool) (conf_draw : ℚ) (away home : String) : String × ℚ × ℚ :=
  let home_r := home_rating + 3
  let away_v := away_rating + variance
  let home_v := home_r + variance
  let confidence := conf_draw
  let predicted_winner :=
    if flip then (if away_v < home_v then away else home)
    else (if away_v < home_v then home else away)
  (predicted_winner, confidence, home_v - away_v)

/-! ## `football_pool/core.py` — confidence-point assignment -/

/-- The literal `points` table of `_apply_fibonacci_assignment`. -/
def points_list : List ℤ :=
  [20, 19, 18, 17, 16, 15, 14, 13, 12, 11, 10, 9, 8, 7, 6, 5, 4, 3, 2, 1]

/-- `_apply_fibonacci_assignment`: stable-sort the picks by `conf or 0`
descending, then assign `points[i]` to the `i`-th of the first 20 picks
and return `picks[:20]`.  (The source's `if i < len(points) else 1`
guard is dead: `i < 20 = len(points)` always.) -/
def apply_fibonacci_assignment (picks : List Pick) : List Pick :=
  let sorted := sortByDesc (fun p => p.conf.getD 0) picks
  List.zipWith (fun p pt => { p with confidence_points := pt }) (sorted.take 20) points_list

/-! ## `football_pool/value_optimization.py` -/

/-- `value_optimization.ValuePlay` (the dataclass). -/
structure ValuePlay where
  game : String
  team : String
  confidence : ℤ
  value_score : ℚ
  risk_score : ℚ
  upside_potential : ℚ := 0
  downside_risk : ℚ := 0
  contrarian_edge : ℚ := 0
  public_sentiment : ℚ := 0
  sharp_money_indicator : Bool := false
  optimization_recommendation : String := ""
deriving Repr, DecidableEq

/-- An externally supplied analysis entry, as read by
`ValuePlayOptimizer._calculate_value_score` via `pick.get(...)`:
`confidence` (default `0`), `contrarian_edge` text (default `""`),
`value_play` text (default `""`). -/
structure AnalysisEntry where
  confidence : ℚ
  contrarian_edge : String
  value_play : String

/-- The contrarian bonus of `_calculate_value_score`:
`0.2` if `"contrarian" in contrarian_edge.lower()`, else `0.1` if
`"public" in … and "split" in …`, else `0`. -/
def contrarian_bonus_of (text : String) : ℚ :=
  if containsSub "contrarian".toList (lowerL text) then 0.2
  else if containsSub "public".toList (lowerL text) && containsSub "split".toList (lowerL text)
  then 0.1
  else 0

/-- The value-play bonus of `_calculate_value_score`:
`0.15` if `"exploit" in value_play.lower()`, else `0.1` if
`"advantage" in …`, else `0`. -/
def value_bonus_of (text : String) : ℚ :=
  if containsSub "exploit".toList (lowerL text) then 0.15
  else if containsSub "advantage".toList (lowerL text) then 0.1
  else 0

/-- `ValuePlayOptimizer._calculate_value_score`:
`min(1.0, confidence/20 + contrarian_bonus + value_bonus)`. -/
def calculate_value_score (pick : AnalysisEntry) : ℚ :=
  let confidence_value := pick.confidence / 20
  pyMin 1 (confidence_value + contrarian_bonus_of pick.contrarian_edge
    + value_bonus_of pick.value_play)

/-- The spec's `clamp01`. -/
def clamp01 (x : ℚ) : ℚ := max 0 (min 1 x)

/-- Python `for i, x in enumerate(l)` driving a per-element computation:
map with the running index. -/
def enumerate_map {α β : Type} (f : ℕ → α → β) : ℕ → List α → List β
  | _, [] => []
  | i, a :: as => f i a :: enumerate_map f (i + 1) as

/-- `ValuePlayOptimizer.optimize_confidence_allocation`: sort by
`value_score` descending; at 0-indexed position `i` set
`confidence := max(1, min(20, int((20 − i) · value_score · (1 − risk_score·0.5))))`.
(The source's unused `total_confidence = 210` is dropped.) -/
def optimize_confidence_allocation (value_plays : List ValuePlay) : List ValuePlay :=
  let sorted_plays := sortByDesc (fun p => p.value_score) value_plays
  enumerate_map
    (fun i play =>
      let base_confidence : ℚ := 20 - (i : ℚ)
      let value_multiplier := play.value_score
      let risk_penalty := play.risk_score * 0.5
      let optimized_confidence : ℤ :=
        max 1 (min 20 (pyInt (base_confidence * value_multiplier * (1 - risk_penalty))))
      { play with confidence := optimized_confidence })
    0 sorted_plays

/-! ## `football_pool/multi_llm_analyzer.py`

An analysis dict is modelled down to the parts the combiner reads:
`analysis['contrarian_analysis']` (may be absent), whose three signal
sections `public_betting_analysis`, `weather_impact`, `injury_analysis`
map keys to lists of game identifiers.  The combiner's
`isinstance(value, list)` guard skips non-list values, which this model
represents by containing only the list-valued entries. -/

structure ContrarianAnalysis where
  public_betting_analysis : List (String × List String)
  weather_impact : List (String × List String)
  injury_analysis : List (String × List String)
deriving Repr, DecidableEq

structure LLMAnalysis where
  contrarian_analysis : Option ContrarianAnalysis
deriving Repr, DecidableEq

/-- The games a section mentions, in dict order. -/
def section_games (sec : List (String × List String)) : List String :=
  sec.flatMap (·.2)

/-- All games one analysis mentions, iterating the three signal
sections in the source's fixed order (with multiplicity). -/
def analysis_mentions (a : LLMAnalysis) : List String :=
  match a.contrarian_analysis with
  | none => []
  | some ca =>
    section_games ca.public_betting_analysis ++ section_games ca.weather_impact
      ++ section_games ca.injury_analysis

/-- The `(game, llm_name)` mention stream of the combiner's nested
loops, in iteration order. -/
def mention_pairs (analyses : List (String × LLMAnalysis)) : List (String × String) :=
  analyses.flatMap (fun na => (analysis_mentions na.2).map (fun g => (g, na.1)))

/-- `game_mentions[game].append(llm_name)` on an insertion-ordered
dict: extend the entry if present, else append a new one. -/
def add_mention : List (String × List String) → String × String → List (String × List String)
  | [], (g, n) => [(g, [n])]
  | (g', ns) :: rest, (g, n) =>
    if g' = g then (g', ns ++ [n]) :: rest else (g', ns) :: add_mention rest (g, n)

/-- The `game_mentions` dict built by `_consensus_combination`. -/
def game_mentions (analyses : List (String × LLMAnalysis)) : List (String × List String) :=
  (mention_pairs analyses).foldl add_mention []

/-- `_consensus_combination`, reduced to its one populated output field
`combined["consensus_games"]` (the other keys of `combined` stay at
their empty initial values; the `all_games` set is computed but
unused). -/
def consensus_combination (analyses : List (String × LLMAnalysis)) : List String :=
  ((game_mentions analyses).filter (fun gm => 1 < gm.2.length)).map (·.1)

/-- `self.llm_weights.get(llm_name, 0.5)` with the constructor's
`{'grok': 0.4, 'chatgpt': 0.6}`. -/
def llm_weight (name : String) : ℚ :=
  if name = "grok" then 0.4 else if name = "chatgpt" then 0.6 else 0.5

/-- The `(game, weight)` stream of `_weighted_combination`'s nested
loops. -/
def weighted_pairs (analyses : List (String × LLMAnalysis)) : List (String × ℚ) :=
  analyses.flatMap (fun na => (analysis_mentions na.2).map (fun g => (g, llm_weight na.1)))

/-- `game_scores[game] += weight` on an insertion-ordered dict. -/
def add_score : List (String × ℚ) → String × ℚ → List (String × ℚ)
  | [], (g, w) => [(g, w)]
  | (g', s) :: rest, (g, w) =>
    if g' = g then (g', s + w) :: rest else (g', s) :: add_score rest (g, w)

/-- The `game_scores` dict built by `_weighted_combination`. -/
def game_scores (analyses : List (String × LLMAnalysis)) : List (String × ℚ) :=
  (weighted_pairs analyses).foldl add_score []

/-- Python `max(d.values())` (`0` placeholder on the empty dict, where
the source never evaluates it). -/
def max_value : List (String × ℚ) → ℚ
  | [] => 0
  | e :: rest => (rest.map (·.2)).foldl max e.2

/-- The normalization step of `_weighted_combination`
(`if game_scores:` guards the division). -/
def normalize_scores (m : List (String × ℚ)) : List (String × ℚ) :=
  match m with
  | [] => []
  | _ => m.map (fun e => (e.1, e.2 / max_value m))

/-- The two populated output fields of `_weighted_combination`. -/
structure WeightedCombined where
  confidence_scores : List (String × ℚ)
  weighted_games : List (String × ℚ)
deriving Repr, DecidableEq

/-- `_weighted_combination`: accumulate weights per game, normalize by
the maximum, and sort the items by normalized score descending. -/
def weighted_combination (analyses : List (String × LLMAnalysis)) : WeightedCombined :=
  let norm := normalize_scores (game_scores analyses)
  { confidence_scores := norm, weighted_games := sortByDesc (·.2) norm }

/-- `ca['public_betting_analysis'].get('contrarian_opportunities', [])`. -/
def contrarian_opps (a : LLMAnalysis) : List String :=
  match a.contrarian_analysis with
  | none => []
  | some ca =>
    ((ca.public_betting_analysis.find? (fun e => e.1 == "contrarian_opportunities")).map
      (·.2)).getD []

/-- `_best_combination`, reduced to its `best_games` output field:
concatenate each source's `contrarian_opportunities` in source order,
then de-duplicate keeping first occurrences.  (A source lacking
`contrarian_analysis`, or with an empty opportunity list, contributes
nothing.) -/
def best_combination (analyses : List (String × LLMAnalysis)) : List String :=
  dedupFirstAux [] (analyses.flatMap (fun na => contrarian_opps na.2))

/-- The mode-dependent result dict of `combine_analyses`. -/
inductive CombinedAnalysis where
  | consensus (consensus_games : List String)
  | weighted (res : WeightedCombined)
  | best (best_games : List String)
deriving Repr, DecidableEq

/-- `MultiLLMAnalyzer.combine_analyses`: dispatch on the strategy
string; an unknown strategy raises `ValueError`. -/
def combine_analyses (analyses : List (String × LLMAnalysis)) (strategy : String) :
    Except String CombinedAnalysis :=
  if strategy = "consensus" then .ok (.consensus (consensus_combination analyses))
  else if strategy = "weighted" then .ok (.weighted (weighted_combination analyses))
  else if strategy = "best" then .ok (.best (best_combination analyses))
  else .error ("Unknown strategy: " ++ strategy)

/-! ## Declarative accessors and spec-side definitions

`dict_find`/`keysOf` are proof-side accessors for the association-list
dicts; `mentioned_games` and `mention_weight_sum` give declarative
readings of the combiner's accumulation loops; the `claim_*`
definitions transcribe the spec's words (distinct-source counting) for
comparison with the source's behaviour. -/

/-- Value stored under key `g`, if any. -/
def dict_find {β : Type} : List (String × β) → String → Option β
  | [], _ => none
  | e :: rest, g => if e.1 = g then some e.2 else dict_find rest g

/-- The keys of an association-list dict, in order. -/
def keysOf {β : Type} (m : List (String × β)) : List String := m.map (·.1)

/-- Every game mentioned by any source under any signal category, in
iteration order, with multiplicity. -/
def mentioned_games (analyses : List (String × LLMAnalysis)) : List String :=
  (mention_pairs analyses).map (·.1)

/-- Declarative total weight accumulated for game `g`: the sum of one
source weight per mention of `g`. -/
def mention_weight_sum (analyses : List (String × LLMAnalysis)) (g : String) : ℚ :=
  (((weighted_pairs analyses).filter (fun e => e.1 == g)).map (·.2)).sum

/-- The claim's consensus semantics: a game reaches consensus iff it is
mentioned by more than one distinct source, identified by name. -/
def claim_consensus (analyses : List (String × LLMAnalysis)) : List String :=
  (dedupFirstAux [] (mentioned_games analyses)).filter
    (fun g =>
      1 < (dedupFirstAux [] ((analyses.filter
        (fun na => g ∈ analysis_mentions na.2)).map (·.1))).length)

/-- The claim's weighted semantics, raw score: each source mentioning
`g` (in however many categories) contributes its weight exactly once. -/
def claim_weighted_raw (analyses : List (String × LLMAnalysis)) (g : String) : ℚ :=
  ((analyses.filter (fun na => g ∈ analysis_mentions na.2)).map
    (fun na => llm_weight na.1)).sum

/-- The claim's weighted semantics, normalized by the maximum raw
score over mentioned games. -/
def claim_weighted_norm (analyses : List (String × LLMAnalysis)) (g : String) : ℚ :=
  claim_weighted_raw analyses g /
    max_value ((dedupFirstAux [] (mentioned_games analyses)).map
      (fun g' => (g', claim_weighted_raw analyses g')))

/-- Single-source input refuting the distinct-source consensus claim:
`grok` mentions the same game under two signal categories. -/
def cex_consensus : List (String × LLMAnalysis) :=
  [("grok", ⟨some ⟨[("heavy_public_favorites", ["KC@NYG"])], [("wind_games", ["KC@NYG"])], []⟩⟩)]

/-- Single-source input refuting the once-per-game weighted claim:
`grok` mentions `KC@NYG` in two categories and `DAL@CHI` in one. -/
def cex_weighted : List (String × LLMAnalysis) :=
  [("grok",
    ⟨some ⟨[("heavy_public_favorites", ["KC@NYG", "DAL@CHI"])], [("wind_games", ["KC@NYG"])],
      []⟩⟩)]

/-- Single-source input refuting the combiner identity law: the one
source mentions one game once and flags no contrarian opportunities. -/
def cex_identity : LLMAnalysis := ⟨some ⟨[("k1", ["KC@NYG"])], [], []⟩⟩

/-! ## Properties of the sort helper -/

theorem insertByDesc_length {α : Type} (key : α → ℚ) (a : α) (s : List α) :
    (insertByDesc key a s).length = s.length + 1 := by
  induction s with
  | nil => rfl
  | cons b bs ih =>
    simp only [insertByDesc]
    split <;> simp [ih]

theorem sortByDesc_length {α : Type} (key : α → ℚ) (l : List α) :
    (sortByDesc key l).length = l.length := by
  induction l with
  | nil => rfl
  | cons a as ih =>
    simp only [sortByDesc, insertByDesc_length, ih, List.length_cons]

theorem insertByDesc_perm {α : Type} (key : α → ℚ) (a : α) (s : List α) :
    (insertByDesc key a s).Perm (a :: s) := by
  induction s with
  | nil => exact List.Perm.refl _
  | cons b bs ih =>
    simp only [insertByDesc]
    split
    · exact List.Perm.refl _
    · exact List.Perm.trans (List.Perm.cons b ih) (List.Perm.swap a b bs)

theorem sortByDesc_perm {α : Type} (key : α → ℚ) (l : List α) :
    (sortByDesc key l).Perm l := by
  induction l with
  | nil => exact List.Perm.refl _
  | cons a as ih =>
    exact List.Perm.trans (insertByDesc_perm key a (sortByDesc key as)) (List.Perm.cons a ih)

theorem insertByDesc_sorted {α : Type} (key : α → ℚ) (a : α) (s : List α)
    (hs : s.Pairwise (fun x y => key y ≤ key x)) :
    (insertByDesc key a s).Pairwise (fun x y => key y ≤ key x) := by
  induction s with
  | nil => simp [insertByDesc]
  | cons b bs ih =>
    simp only [insertByDesc]
    rcases List.pairwise_cons.mp hs with ⟨hb, hbs⟩
    split
    · rename_i hba
      refine List.pairwise_cons.mpr ⟨?_, hs⟩
      intro y hy
      rcases hy with _ | hy
      · exact hba
      · exact le_trans (hb _ (by assumption)) hba
    · rename_i hba
      refine List.pairwise_cons.mpr ⟨?_, ih hbs⟩
      intro y hy
      have hmem : y = a ∨ y ∈ bs :=
        List.mem_cons.mp ((insertByDesc_perm key a bs).mem_iff.mp hy)
      rcases hmem with rfl | hy'
      · exact le_of_not_le hba
      · exact hb _ hy'

theorem sortByDesc_sorted {α : Type} (key : α → ℚ) (l : List α) :
    (sortByDesc key l).Pairwise (fun x y => key y ≤ key x) := by
  induction l with
  | nil => simp [sortByDesc]
  | cons a as ih => exact insertByDesc_sorted key a _ ih

/-! ## Claim C2 — strategy selector totality and boundaries -/

/-- C2: the strategy selector is a pure, total function of the pool
deficit: for every `d` it returns exactly one of the four tags, with
`d < -30 ↦ protective`, `-30 ≤ d < 0 ↦ balanced`,
`0 ≤ d < 50 ↦ high_variance` and `50 ≤ d ↦ maximum_variance`. -/
theorem C2_strategy_selector_total (d : ℚ) :
    (determine_strategy d = "protective" ∨ determine_strategy d = "balanced" ∨
      determine_strategy d = "high_variance" ∨ determine_strategy d = "maximum_variance") ∧
    (d < -30 → determine_strategy d = "protective") ∧
    (-30 ≤ d → d < 0 → determine_strategy d = "balanced") ∧
    (0 ≤ d → d < 50 → determine_strategy d = "high_variance") ∧
    (50 ≤ d → determine_strategy d = "maximum_variance") := by
  unfold determine_strategy
  refine ⟨?_, ?_, ?_, ?_, ?_⟩ <;> intros <;> split_ifs <;> first | rfl | tauto | linarith

/-- Witness for C2 at the boundary deficits `-30`, `0`, `50` and an
interior point `-31`. -/
theorem C2_strategy_selector_total_witness :
    determine_strategy (-31) = "protective" ∧ determine_strategy (-30) = "balanced" ∧
    determine_strategy 0 = "high_variance" ∧ determine_strategy 50 = "maximum_variance" :=
  ⟨(C2_strategy_selector_total (-31)).2.1 (by norm_num),
   (C2_strategy_selector_total (-30)).2.2.1 (by norm_num) (by norm_num),
   (C2_strategy_selector_total 0).2.2.2.1 (by norm_num) (by norm_num),
   (C2_strategy_selector_total 50).2.2.2.2 (by norm_num)⟩

/-! ## Claim C9 — symmetric noise cancels out -/

/-- C9: in the high-variance and maximum-variance scorers the sampled
noise is added identically to both ratings, so the predicted winner,
the confidence and the recorded spread are those computed with zero
noise; only the underdog-flip draw (and, for maximum variance, the
uniform confidence draw) can change the output. -/
theorem C9_variance_noise_cancels (away_rating home_rating variance : ℚ) (flip : Bool)
    (conf_draw : ℚ) (away home : String) :
    score_high_variance_game away_rating home_rating variance flip away home =
      score_high_variance_game away_rating home_rating 0 flip away home ∧
    score_maximum_variance_game away_rating home_rating variance flip conf_draw away home =
      score_maximum_variance_game away_rating home_rating 0 flip conf_draw away home := by
  have hlt : (away_rating + variance < home_rating + 3 + variance) =
      (away_rating + 0 < home_rating + 3 + 0) :=
    propext (by constructor <;> intro h <;> linarith)
  have hsub : home_rating + 3 + variance - (away_rating + variance) =
      home_rating + 3 + 0 - (away_rating + 0) := by ring
  constructor <;>
    · simp only [score_high_variance_game, score_maximum_variance_game, hlt, hsub]

/-! ## Claim C7 — fused value score -/

/-- C7: for every analysis entry with nonnegative confidence, the fused
value score equals `clamp01(confidence/20 + contrarianBonus + valueBonus)`,
the bonuses being `0.2`/`0.1`/`0` and `0.15`/`0.1`/`0` according to the
keyword tests of the source. -/
theorem C7_value_score_clamp (pick : AnalysisEntry) (h : 0 ≤ pick.confidence) :
    calculate_value_score pick =
      clamp01 (pick.confidence / 20 + contrarian_bonus_of pick.contrarian_edge
        + value_bonus_of pick.value_play) := by
  have hcb : 0 ≤ contrarian_bonus_of pick.contrarian_edge := by
    unfold contrarian_bonus_of; split_ifs <;> norm_num
  have hvb : 0 ≤ value_bonus_of pick.value_play := by
    unfold value_bonus_of; split_ifs <;> norm_num
  have hsum : 0 ≤ pick.confidence / 20 + contrarian_bonus_of pick.contrarian_edge
      + value_bonus_of pick.value_play := by
    have : 0 ≤ pick.confidence / 20 := by positivity
    linarith
  unfold calculate_value_score clamp01
  have hpm : pyMin 1 (pick.confidence / 20 + contrarian_bonus_of pick.contrarian_edge
      + value_bonus_of pick.value_play) =
      min 1 (pick.confidence / 20 + contrarian_bonus_of pick.contrarian_edge
        + value_bonus_of pick.value_play) := by
    unfold pyMin; rw [min_def]
  rw [hpm, max_eq_right (le_min (by norm_num) hsum)]

/-- Witness for C7: the spec's worked example — confidence 18,
contrarian-edge text containing "contrarian" and "public wrong",
value-play text containing "exploit" — scores exactly 1. -/
theorem C7_value_score_clamp_witness :
    calculate_value_score
        ⟨18, "Strong contrarian spot - public wrong on this one", "exploit the line value"⟩ =
      clamp01 ((18 : ℚ) / 20 + 0.2 + 0.15) ∧
    calculate_value_score
        ⟨18, "Strong contrarian spot - public wrong on this one", "exploit the line value"⟩ = 1 := by
  have h := C7_value_score_clamp
    ⟨18, "Strong contrarian spot - public wrong on this one", "exploit the line value"⟩
    (by norm_num)
  have hcb : contrarian_bonus_of "Strong contrarian spot - public wrong on this one" = 0.2 := by
    unfold contrarian_bonus_of
    rw [if_pos (by decide)]
  have hvb : value_bonus_of "exploit the line value" = 0.15 := by
    unfold value_bonus_of
    rw [if_pos (by decide)]
  rw [h, hcb, hvb]
  constructor
  · rfl
  · unfold clamp01
    norm_num

/-! ## Claim C10 — Pick construction validates the 1–20 range -/

/-- C10: constructing a `Pick` with `confidence_points` outside `[1, 20]`
raises `ValueError`; every successfully constructed `Pick` has
`confidence_points ∈ [1, 20]`; and every pick returned by the
confidence-assignment step lies in `[1, 20]` as well. -/
theorem C10_pick_range_validation :
    (∀ g w cp conf sp pp, (cp < 1 ∨ 20 < cp) →
        mkPick g w cp conf sp pp = .error "Confidence points must be between 1 and 20") ∧
    (∀ g w cp conf sp pp p, mkPick g w cp conf sp pp = .ok p →
        1 ≤ p.confidence_points ∧ p.confidence_points ≤ 20) ∧
    (∀ picks p, p ∈ apply_fibonacci_assignment picks →
        1 ≤ p.confidence_points ∧ p.confidence_points ≤ 20) := by
  refine ⟨?_, ?_, ?_⟩
  · intro g w cp conf sp pp hcp
    unfold mkPick
    rw [if_pos (by exact_mod_cast hcp)]
  · intro g w cp conf sp pp p hok
    unfold mkPick at hok
    split_ifs at hok with h1 h2
    have hcp : p.confidence_points = cp := by rw [← Except.ok.inj hok]
    push_neg at h1
    omega
  · intro picks p hp
    have hmem : p.confidence_points ∈ (apply_fibonacci_assignment picks).map
        (·.confidence_points) := List.mem_map_of_mem _ hp
    rw [apply_fibonacci_assignment] at hmem
    rw [List.map_zipWith] at hmem
    have hsnd : ∀ {α β : Type} (l1 : List α) (l2 : List β) (x : β),
        x ∈ List.zipWith (fun _ b => b) l1 l2 → x ∈ l2 := by
      intro α β l1
      induction l1 with
      | nil => intro l2 x hx; simp [List.zipWith] at hx
      | cons a as ih =>
        intro l2 x hx
        cases l2 with
        | nil => simp [List.zipWith] at hx
        | cons b bs =>
          simp only [List.zipWith] at hx
          rcases List.mem_cons.mp hx with rfl | hx'
          · exact List.mem_cons_self _ _
          · exact List.mem_cons_of_mem _ (ih bs x hx')
    have hpt : p.confidence_points ∈ points_list := hsnd _ _ _ hmem
    have hall : ∀ x ∈ points_list, 1 ≤ x ∧ x ≤ 20 := by decide
    exact hall _ hpt

/-- Witness for C10: rejection at confidence 25, and the assigned pick
of a one-element pool lies in `[1, 20]`. -/
theorem C10_pick_range_validation_witness :
    mkPick "KC@NYG" "KC" 25 none none none =
      .error "Confidence points must be between 1 and 20" ∧
    (1 ≤ (Pick.mk "KC@NYG" "KC" 20 none none none).confidence_points ∧
      (Pick.mk "KC@NYG" "KC" 20 none none none).confidence_points ≤ 20) :=
  ⟨C10_pick_range_validation.1 "KC@NYG" "KC" 25 none none none (by omega),
   C10_pick_range_validation.2.2 [Pick.mk "KC@NYG" "KC" 3 none none none] _ (by decide)⟩

/-! ## Claim C3 — the reallocation pass -/

/-- A one-element pool refuting C3 as stated: with `valueScore = 1` and
`riskScore = 0` the single play (so `K = 1`) is reallocated confidence
`20`, outside `[1, K] = [1, 1]` and not the bijection image `{1}`. -/
def c3_play : ValuePlay :=
  { game := "KC@NYG", team := "KC", confidence := 5, value_score := 1, risk_score := 0 }

/-- Counterexample to C3 as stated: the source clamps to `[1, 20]` with
base `20 − i`, not to `[1, K]` with base `K − i`; for a single play the
result is `20`, which violates both the claimed `[1, K]` bound and the
claimed bijection onto `{1..K}`. -/
theorem C3_counterexample :
    (optimize_confidence_allocation [c3_play]).map (·.confidence) = [20] ∧ ¬((20 : ℤ) ≤ 1) := by
  constructor
  · norm_num [optimize_confidence_allocation, sortByDesc, insertByDesc, enumerate_map,
      pyInt, c3_play]
  · decide

/-- Membership in an `enumerate_map` image comes from some index and
element. -/
theorem mem_enumerate_map {α β : Type} (f : ℕ → α → β) :
    ∀ (i : ℕ) (l : List α) (x : β), x ∈ enumerate_map f i l → ∃ j a, x = f j a := by
  intro i l
  induction l generalizing i with
  | nil => intro x hx; simp [enumerate_map] at hx
  | cons a as ih =>
    intro x hx
    rcases List.mem_cons.mp hx with rfl | hx'
    · exact ⟨i, a, rfl⟩
    · exact ih (i + 1) x hx'

/-- C3 amended: the reallocation pass sorts by `valueScore` descending
and, at 0-indexed position `i`, computes
`clamp(1, 20, trunc((20 − i) · valueScore · (1 − riskScore·0.5)))` —
base `20 − i` and clamp bounds `[1, 20]` irrespective of the pool size
`K` — so every returned confidence lies in `[1, 20]`; the bijection
onto `{1..K}` is not restored. -/
theorem C3_reallocation_bounded (plays : List ValuePlay) (p : ValuePlay)
    (hp : p ∈ optimize_confidence_allocation plays) :
    1 ≤ p.confidence ∧ p.confidence ≤ 20 := by
  unfold optimize_confidence_allocation at hp
  obtain ⟨j, a, rfl⟩ := mem_enumerate_map _ _ _ _ hp
  constructor
  · exact le_max_left _ _
  · exact max_le (by norm_num) (min_le_left _ _)

/-- Witness for C3 at the one-element pool of `c3_play`. -/
theorem C3_reallocation_bounded_witness :
    1 ≤ ({ c3_play with confidence := 20 } : ValuePlay).confidence ∧
      ({ c3_play with confidence := 20 } : ValuePlay).confidence ≤ 20 :=
  C3_reallocation_bounded [c3_play] _ (by
    norm_num [optimize_confidence_allocation, sortByDesc, insertByDesc, enumerate_map,
      pyInt, c3_play])

/-! ## Claim C1 — confidence assignment -/

theorem zipWith_snd_eq_take {α β : Type} :
    ∀ (l1 : List α) (l2 : List β), List.zipWith (fun _ b => b) l1 l2 = l2.take l1.length
  | [], _ => by simp
  | _ :: _, [] => by simp
  | a :: as, b :: bs => by
    simp only [List.zipWith, List.length_cons, List.take_succ_cons,
      zipWith_snd_eq_take as bs]

/-- The confidence points assigned by `_apply_fibonacci_assignment` are
`20, 19, …, 21 − K` where `K = min(20, N)`, independent of the pool's
contents. -/
theorem apply_fibonacci_confidences (picks : List Pick) :
    (apply_fibonacci_assignment picks).map (·.confidence_points) =
      (List.range (min 20 picks.length)).map (fun i : ℕ => (20 : ℤ) - (i : ℤ)) := by
  unfold apply_fibonacci_assignment
  rw [List.map_zipWith]
  rw [zipWith_snd_eq_take]
  have hlen : ((sortByDesc (fun p => p.conf.getD 0) picks).take 20).length =
      min 20 picks.length := by
    simp [List.length_take, sortByDesc_length]
  rw [hlen]
  have hpts : points_list = (List.range 20).map (fun i : ℕ => (20 : ℤ) - (i : ℤ)) := by decide
  rw [hpts, ← List.map_take, List.take_range,
    show (20 ⊓ picks.length) ⊓ 20 = 20 ⊓ picks.length from by omega]

/-- Counterexample to C1 as stated: a two-pick pool (`K = 2`) is
assigned confidence points `{20, 19}`, not the claimed bijection image
`{1, 2}`. -/
theorem C1_counterexample :
    (apply_fibonacci_assignment
        [⟨"KC@NYG", "KC", 1, none, none, none⟩, ⟨"DAL@CHI", "DAL", 1, none, none, none⟩]).map
      (·.confidence_points) = [20, 19] ∧
    ¬ (([20, 19] : List ℤ).Perm [1, 2]) := by
  constructor
  · decide
  · decide

/-- C1 amended: for a pool of size `N` the assignment returns exactly
`K = min(20, N)` picks whose confidence points are the pairwise-distinct
descending values `20, 19, …, 21 − K` (drawn from the top of `{1..20}`,
not from `{1..K}`); they form the set `{1..K}` exactly in the case
`N ≥ 20`, where `K = 20`. -/
theorem C1_fibonacci_assignment (picks : List Pick) :
    (apply_fibonacci_assignment picks).length = min 20 picks.length ∧
    (apply_fibonacci_assignment picks).map (·.confidence_points) =
      (List.range (min 20 picks.length)).map (fun i : ℕ => (20 : ℤ) - (i : ℤ)) ∧
    ((apply_fibonacci_assignment picks).map (·.confidence_points)).Nodup ∧
    (20 ≤ picks.length →
      ((apply_fibonacci_assignment picks).map (·.confidence_points)).Perm
        ((List.range 20).map (fun i : ℕ => (i : ℤ) + 1))) := by
  have hconf := apply_fibonacci_confidences picks
  refine ⟨?_, hconf, ?_, ?_⟩
  · have := congrArg List.length hconf
    simpa using this
  · rw [hconf]
    refine List.Nodup.map ?_ (List.nodup_range _)
    intro i j hij
    dsimp only at hij
    omega
  · intro h20
    rw [hconf]
    have : min 20 picks.length = 20 := by omega
    rw [this]
    decide

/-- Witness for C1 at a 21-pick pool: the 20 returned confidence points
are a permutation of `{1..20}`. -/
theorem C1_fibonacci_assignment_witness :
    20 ≤ (List.replicate 21 (⟨"KC@NYG", "KC", 1, none, none, none⟩ : Pick)).length ∧
    ((apply_fibonacci_assignment
        (List.replicate 21 (⟨"KC@NYG", "KC", 1, none, none, none⟩ : Pick))).map
      (·.confidence_points)).Perm ((List.range 20).map (fun i : ℕ => (i : ℤ) + 1)) :=
  ⟨by simp, (C1_fibonacci_assignment _).2.2.2 (by simp)⟩

/-! ## Association-list dict lemmas -/

theorem dedupFirstAux_congr (l : List String) :
    ∀ (s1 s2 : List String), (∀ x, x ∈ s1 ↔ x ∈ s2) →
      dedupFirstAux s1 l = dedupFirstAux s2 l := by
  induction l with
  | nil => intro s1 s2 h; rfl
  | cons x xs ih =>
    intro s1 s2 h
    simp only [dedupFirstAux]
    by_cases hx : x ∈ s1
    · rw [if_pos hx, if_pos ((h x).mp hx), ih s1 s2 h]
    · rw [if_neg hx, if_neg (fun hc => hx ((h x).mpr hc))]
      congr 1
      refine ih _ _ ?_
      intro y
      simp [h y]

theorem dedupFirstAux_nodup (l : List String) :
    ∀ (seen : List String),
      (dedupFirstAux seen l).Nodup ∧ ∀ x ∈ dedupFirstAux seen l, x ∉ seen := by
  induction l with
  | nil => intro seen; simp [dedupFirstAux]
  | cons x xs ih =>
    intro seen
    simp only [dedupFirstAux]
    by_cases hx : x ∈ seen
    · rw [if_pos hx]; exact ih seen
    · rw [if_neg hx]
      obtain ⟨hnd, hnotin⟩ := ih (x :: seen)
      refine ⟨List.nodup_cons.mpr ⟨?_, hnd⟩, ?_⟩
      · intro hc
        exact hnotin x hc (List.mem_cons_self _ _)
      · intro y hy
        rcases List.mem_cons.mp hy with rfl | hy'
        · exact hx
        · intro hc
          exact hnotin y hy' (List.mem_cons_of_mem _ hc)

theorem dedupFirstAux_subset (l : List String) :
    ∀ (seen : List String), ∀ x ∈ dedupFirstAux seen l, x ∈ l := by
  induction l with
  | nil => intro seen x hx; simp [dedupFirstAux] at hx
  | cons a as ih =>
    intro seen x hx
    simp only [dedupFirstAux] at hx
    by_cases ha : a ∈ seen
    · rw [if_pos ha] at hx
      exact List.mem_cons_of_mem _ (ih seen x hx)
    · rw [if_neg ha] at hx
      rcases List.mem_cons.mp hx with rfl | hx'
      · exact List.mem_cons_self _ _
      · exact List.mem_cons_of_mem _ (ih _ x hx')

theorem dedupFirstAux_mem (l : List String) :
    ∀ (seen : List String) (x : String), x ∈ l → x ∉ seen → x ∈ dedupFirstAux seen l := by
  induction l with
  | nil => intro seen x hx; simp at hx
  | cons a as ih =>
    intro seen x hx hxs
    simp only [dedupFirstAux]
    by_cases ha : a ∈ seen
    · rw [if_pos ha]
      rcases List.mem_cons.mp hx with rfl | hx'
      · exact absurd ha hxs
      · exact ih seen x hx' hxs
    · rw [if_neg ha]
      by_cases hxa : x = a
      · subst hxa; exact List.mem_cons_self _ _
      · rcases List.mem_cons.mp hx with rfl | hx'
        · exact absurd rfl hxa
        · exact List.mem_cons_of_mem _
            (ih _ x hx' (fun hc => (List.mem_cons.mp hc).elim hxa hxs))

theorem dict_find_of_mem {β : Type} :
    ∀ (m : List (String × β)) (e : String × β), (keysOf m).Nodup → e ∈ m →
      dict_find m e.1 = some e.2 := by
  intro m
  induction m with
  | nil => intro e _ he; simp at he
  | cons a rest ih =>
    intro e hnd he
    obtain ⟨hna, hnrest⟩ := List.nodup_cons.mp hnd
    rcases List.mem_cons.mp he with rfl | he'
    · simp [dict_find]
    · simp only [dict_find]
      by_cases hae : a.1 = e.1
      · exact absurd (by simpa [← hae] using List.mem_map_of_mem (fun x => x.1) he') hna
      · rw [if_neg hae]
        exact ih e hnrest he'

theorem filter_map_keys {β : Type} (p : β → Bool) (d : β) :
    ∀ (m : List (String × β)), (keysOf m).Nodup →
      (m.filter (fun e => p e.2)).map (·.1) =
        (keysOf m).filter (fun g => p ((dict_find m g).getD d)) := by
  intro m
  induction m with
  | nil => intro _; rfl
  | cons a rest ih =>
    intro hnd
    obtain ⟨hna, hnrest⟩ := List.nodup_cons.mp hnd
    have hrest : ((keysOf rest).filter
        (fun g => p ((dict_find (a :: rest) g).getD d))) =
        ((keysOf rest).filter (fun g => p ((dict_find rest g).getD d))) := by
      refine List.filter_congr ?_
      intro g hg
      have hga : ¬ a.1 = g := fun hc => hna (by rw [← hc] at hg; exact hg)
      simp [dict_find, hga]
    have hkeys : keysOf (a :: rest) = a.1 :: keysOf rest := by simp [keysOf]
    have hval : dict_find (a :: rest) a.1 = some a.2 := by simp [dict_find]
    have hcond : p ((dict_find (a :: rest) a.1).getD d) = p a.2 := by rw [hval]; rfl
    rw [hkeys]
    rw [List.filter_cons, List.filter_cons, hcond]
    by_cases hp : p a.2
    · rw [if_pos hp, if_pos hp, List.map_cons]
      congr 1
      rw [ih hnrest]
      exact hrest.symm
    · rw [if_neg hp, if_neg hp]
      rw [ih hnrest]
      exact hrest.symm

/-! ## The consensus accumulation loop, declaratively -/

theorem dict_find_add_mention (g' n g : String) :
    ∀ (m : List (String × List String)),
      dict_find (add_mention m (g', n)) g =
        if g = g' then some ((dict_find m g').getD [] ++ [n]) else dict_find m g := by
  intro m
  induction m with
  | nil =>
    by_cases hgg : g = g'
    · subst hgg; simp [add_mention, dict_find]
    · have h2 : ¬ g' = g := fun hc => hgg hc.symm
      simp [add_mention, dict_find, hgg, h2]
  | cons a rest ih =>
    obtain ⟨a1, a2⟩ := a
    by_cases hag : a1 = g' <;> by_cases hgg : g = g'
    · subst hgg; subst hag
      simp [add_mention, dict_find]
    · subst hag
      have h1 : ¬ a1 = g := fun hc => hgg hc.symm
      simp [add_mention, dict_find, hgg, h1]
    · subst hgg
      simp [add_mention, dict_find, hag, ih]
    · by_cases h1 : a1 = g
      · subst h1
        simp [add_mention, dict_find, hag, hgg]
      · simp [add_mention, dict_find, hag, hgg, h1, ih]

theorem keysOf_add_mention (g n : String) :
    ∀ (m : List (String × List String)),
      keysOf (add_mention m (g, n)) =
        if g ∈ keysOf m then keysOf m else keysOf m ++ [g] := by
  intro m
  induction m with
  | nil => simp [add_mention, keysOf]
  | cons a rest ih =>
    obtain ⟨a1, a2⟩ := a
    by_cases hag : a1 = g
    · subst hag
      simp [add_mention, keysOf]
    · have h1 : ¬ g = a1 := fun hc => hag hc.symm
      have hadd : add_mention ((a1, a2) :: rest) (g, n) = (a1, a2) :: add_mention rest (g, n) := by
        simp [add_mention, hag]
      have hkeys : keysOf ((a1, a2) :: rest) = a1 :: keysOf rest := by simp [keysOf]
      have hkeys2 : keysOf ((a1, a2) :: add_mention rest (g, n)) =
          a1 :: keysOf (add_mention rest (g, n)) := by simp [keysOf]
      rw [hadd, hkeys2, ih, hkeys]
      by_cases hg : g ∈ keysOf rest
      · rw [if_pos hg, if_pos (List.mem_cons_of_mem _ hg)]
      · rw [if_neg hg, if_neg (by simp [List.mem_cons, h1, hg])]
        simp

theorem names_foldl_add_mention (g : String) :
    ∀ (ps : List (String × String)) (m : List (String × List String)),
      (dict_find (ps.foldl add_mention m) g).getD [] =
        (dict_find m g).getD [] ++ (ps.filter (fun e => e.1 == g)).map (·.2) := by
  intro ps
  induction ps with
  | nil => intro m; simp
  | cons p ps ih =>
    intro m
    obtain ⟨pg, pn⟩ := p
    simp only [List.foldl_cons, List.filter_cons]
    by_cases hpg : pg = g
    · subst hpg
      rw [ih (add_mention m (pg, pn)), dict_find_add_mention]
      simp
    · rw [ih (add_mention m (pg, pn)), dict_find_add_mention, if_neg (fun hc => hpg hc.symm)]
      simp [hpg]

theorem keys_foldl_add_mention :
    ∀ (ps : List (String × String)) (m : List (String × List String)),
      keysOf (ps.foldl add_mention m) =
        keysOf m ++ dedupFirstAux (keysOf m) (ps.map (·.1)) := by
  intro ps
  induction ps with
  | nil => intro m; simp [dedupFirstAux]
  | cons p ps ih =>
    intro m
    obtain ⟨pg, pn⟩ := p
    simp only [List.foldl_cons, List.map_cons, dedupFirstAux]
    rw [ih (add_mention m (pg, pn)), keysOf_add_mention]
    by_cases hg : pg ∈ keysOf m
    · rw [if_pos hg, if_pos hg]
    · rw [if_neg hg, if_neg hg]
      rw [List.append_assoc]
      congr 1
      rw [List.singleton_append]
      congr 1
      refine dedupFirstAux_congr _ _ _ ?_
      intro y
      simp [or_comm]

theorem filter_fst_length_eq_count {β : Type} (g : String) :
    ∀ (ps : List (String × β)), (ps.filter (fun e => e.1 == g)).length = (ps.map (·.1)).count g := by
  intro ps
  induction ps with
  | nil => simp
  | cons p ps ih =>
    simp only [List.filter_cons, List.map_cons, List.count_cons]
    by_cases h : p.1 = g
    · simp [h, ih]
    · simp [h, ih, fun hc : g = p.1 => h hc.symm]

/-- `_consensus_combination`, characterized declaratively: the output
is the first-seen-ordered list of games whose total mention count,
across all sources, categories and keys (with multiplicity), exceeds
one. -/
theorem consensus_combination_eq (analyses : List (String × LLMAnalysis)) :
    consensus_combination analyses =
      (dedupFirstAux [] (mentioned_games analyses)).filter
        (fun g => 1 < (mentioned_games analyses).count g) := by
  unfold consensus_combination
  have hkeys : keysOf (game_mentions analyses) = dedupFirstAux [] (mentioned_games analyses) := by
    unfold game_mentions mentioned_games
    rw [keys_foldl_add_mention]
    simp [keysOf]
  have hnodup : (keysOf (game_mentions analyses)).Nodup := by
    rw [hkeys]; exact (dedupFirstAux_nodup _ _).1
  have hfm : ((game_mentions analyses).filter (fun gm => 1 < gm.2.length)).map (·.1) =
      (keysOf (game_mentions analyses)).filter
        (fun g => 1 < ((dict_find (game_mentions analyses) g).getD []).length) :=
    filter_map_keys (fun ns => decide (1 < ns.length)) [] _ hnodup
  rw [hfm, hkeys]
  refine List.filter_congr ?_
  intro g hg
  have hlen : ((dict_find (game_mentions analyses) g).getD []).length =
      (mentioned_games analyses).count g := by
    unfold game_mentions mentioned_games
    rw [names_foldl_add_mention g (mention_pairs analyses) []]
    simp only [dict_find, Option.getD_none, List.nil_append, List.length_map]
    exact filter_fst_length_eq_count g _
  rw [hlen]

/-! ## Claim C4 — consensus mode -/

/-- C4 amended: consensus mode outputs, in first-seen order, exactly
the games with more than one mention, where mentions are counted with
multiplicity over sources, signal categories and keys — a single
source mentioning a game in two categories already reaches consensus;
the source names are never de-duplicated. -/
theorem C4_consensus_combination (analyses : List (String × LLMAnalysis)) :
    consensus_combination analyses =
      (dedupFirstAux [] (mentioned_games analyses)).filter
        (fun g => 1 < (mentioned_games analyses).count g) :=
  consensus_combination_eq analyses

/-- Counterexample to C4 as stated: a single source (`grok`) mentioning
the same game under two signal categories does reach consensus in the
source, while the claim's distinct-source reading outputs nothing. -/
theorem C4_counterexample :
    consensus_combination cex_consensus = ["KC@NYG"] ∧
    claim_consensus cex_consensus = [] ∧
    ¬ (["KC@NYG"] = ([] : List String)) := by
  refine ⟨by decide, by decide, by decide⟩

/-! ## The weighted accumulation loop, declaratively -/

theorem dict_find_add_score (g' g : String) (w : ℚ) :
    ∀ (m : List (String × ℚ)),
      dict_find (add_score m (g', w)) g =
        if g = g' then some ((dict_find m g').getD 0 + w) else dict_find m g := by
  intro m
  induction m with
  | nil =>
    by_cases hgg : g = g'
    · subst hgg; simp [add_score, dict_find]
    · have h2 : ¬ g' = g := fun hc => hgg hc.symm
      simp [add_score, dict_find, hgg, h2]
  | cons a rest ih =>
    obtain ⟨a1, a2⟩ := a
    by_cases hag : a1 = g' <;> by_cases hgg : g = g'
    · subst hgg; subst hag
      simp [add_score, dict_find]
    · subst hag
      have h1 : ¬ a1 = g := fun hc => hgg hc.symm
      simp [add_score, dict_find, hgg, h1]
    · subst hgg
      simp [add_score, dict_find, hag, ih]
    · by_cases h1 : a1 = g
      · subst h1
        simp [add_score, dict_find, hag, hgg]
      · simp [add_score, dict_find, hag, hgg, h1, ih]

theorem keysOf_add_score (g : String) (w : ℚ) :
    ∀ (m : List (String × ℚ)),
      keysOf (add_score m (g, w)) =
        if g ∈ keysOf m then keysOf m else keysOf m ++ [g] := by
  intro m
  induction m with
  | nil => simp [add_score, keysOf]
  | cons a rest ih =>
    obtain ⟨a1, a2⟩ := a
    by_cases hag : a1 = g
    · subst hag
      simp [add_score, keysOf]
    · have h1 : ¬ g = a1 := fun hc => hag hc.symm
      have hadd : add_score ((a1, a2) :: rest) (g, w) = (a1, a2) :: add_score rest (g, w) := by
        simp [add_score, hag]
      have hkeys : keysOf ((a1, a2) :: rest) = a1 :: keysOf rest := by simp [keysOf]
      have hkeys2 : keysOf ((a1, a2) :: add_score rest (g, w)) =
          a1 :: keysOf (add_score rest (g, w)) := by simp [keysOf]
      rw [hadd, hkeys2, ih, hkeys]
      by_cases hg : g ∈ keysOf rest
      · rw [if_pos hg, if_pos (List.mem_cons_of_mem _ hg)]
      · rw [if_neg hg, if_neg (by simp [List.mem_cons, h1, hg])]
        simp

theorem scores_foldl_add_score (g : String) :
    ∀ (ps : List (String × ℚ)) (m : List (String × ℚ)),
      (dict_find (ps.foldl add_score m) g).getD 0 =
        (dict_find m g).getD 0 + ((ps.filter (fun e => e.1 == g)).map (·.2)).sum := by
  intro ps
  induction ps with
  | nil => intro m; simp
  | cons p ps ih =>
    intro m
    obtain ⟨pg, pw⟩ := p
    simp only [List.foldl_cons, List.filter_cons]
    by_cases hpg : pg = g
    · subst hpg
      rw [ih (add_score m (pg, pw)), dict_find_add_score]
      simp [add_assoc]
    · rw [ih (add_score m (pg, pw)), dict_find_add_score, if_neg (fun hc => hpg hc.symm)]
      simp [hpg]

theorem keys_foldl_add_score :
    ∀ (ps : List (String × ℚ)) (m : List (String × ℚ)),
      keysOf (ps.foldl add_score m) =
        keysOf m ++ dedupFirstAux (keysOf m) (ps.map (·.1)) := by
  intro ps
  induction ps with
  | nil => intro m; simp [dedupFirstAux]
  | cons p ps ih =>
    intro m
    obtain ⟨pg, pw⟩ := p
    simp only [List.foldl_cons, List.map_cons, dedupFirstAux]
    rw [ih (add_score m (pg, pw)), keysOf_add_score]
    by_cases hg : pg ∈ keysOf m
    · rw [if_pos hg, if_pos hg]
    · rw [if_neg hg, if_neg hg]
      rw [List.append_assoc]
      congr 1
      rw [List.singleton_append]
      congr 1
      refine dedupFirstAux_congr _ _ _ ?_
      intro y
      simp [or_comm]

theorem weighted_pairs_fst (analyses : List (String × LLMAnalysis)) :
    (weighted_pairs analyses).map (·.1) = mentioned_games analyses := by
  unfold weighted_pairs mentioned_games mention_pairs
  induction analyses with
  | nil => simp
  | cons na rest ih =>
    simp [List.flatMap_cons, List.map_append, List.map_map, ih, Function.comp]

theorem game_scores_value (analyses : List (String × LLMAnalysis)) (g : String) :
    (dict_find (game_scores analyses) g).getD 0 = mention_weight_sum analyses g := by
  unfold game_scores mention_weight_sum
  rw [scores_foldl_add_score]
  simp [dict_find]

theorem game_scores_keys (analyses : List (String × LLMAnalysis)) :
    keysOf (game_scores analyses) = dedupFirstAux [] (mentioned_games analyses) := by
  unfold game_scores
  rw [keys_foldl_add_score]
  simp [keysOf, weighted_pairs_fst]

theorem llm_weight_pos (n : String) : 0 < llm_weight n := by
  unfold llm_weight
  split_ifs <;> norm_num

theorem weighted_pairs_snd_pos (analyses : List (String × LLMAnalysis)) :
    ∀ e ∈ weighted_pairs analyses, 0 < e.2 := by
  intro e he
  simp only [weighted_pairs, List.mem_flatMap, List.mem_map] at he
  obtain ⟨na, _, g, _, rfl⟩ := he
  exact llm_weight_pos na.1

theorem game_scores_pos (analyses : List (String × LLMAnalysis)) :
    ∀ e ∈ game_scores analyses, 0 < e.2 := by
  intro e he
  have hnodup : (keysOf (game_scores analyses)).Nodup := by
    rw [game_scores_keys]; exact (dedupFirstAux_nodup _ _).1
  have hval := dict_find_of_mem _ e hnodup he
  have hev : e.2 = mention_weight_sum analyses e.1 := by
    have h2 := game_scores_value analyses e.1
    rw [hval] at h2
    simpa using h2
  rw [hev]
  have hmem : e.1 ∈ (weighted_pairs analyses).map (·.1) := by
    have h1 : e.1 ∈ keysOf (game_scores analyses) := List.mem_map_of_mem _ he
    rw [game_scores_keys] at h1
    have h2 := dedupFirstAux_subset _ _ _ h1
    rwa [weighted_pairs_fst]
  obtain ⟨p, hp, hpe⟩ := List.mem_map.mp hmem
  unfold mention_weight_sum
  apply List.sum_pos
  · intro x hx
    obtain ⟨q, hq, rfl⟩ := List.mem_map.mp hx
    exact weighted_pairs_snd_pos analyses q (List.mem_of_mem_filter hq)
  · have hpf : p ∈ (weighted_pairs analyses).filter (fun e' => e'.1 == e.1) :=
      List.mem_filter.mpr ⟨hp, by simp [hpe]⟩
    intro hnil
    rw [List.map_eq_nil_iff] at hnil
    rw [hnil] at hpf
    simp at hpf

theorem foldl_max_le (l : List ℚ) :
    ∀ (v : ℚ), v ≤ l.foldl max v ∧ ∀ x ∈ l, x ≤ l.foldl max v := by
  induction l with
  | nil => intro v; simp
  | cons x xs ih =>
    intro v
    simp only [List.foldl_cons]
    obtain ⟨h1, h2⟩ := ih (max v x)
    refine ⟨le_trans (le_max_left v x) h1, ?_⟩
    intro y hy
    rcases List.mem_cons.mp hy with rfl | hy'
    · exact le_trans (le_max_right v y) h1
    · exact h2 y hy'

theorem foldl_max_mem (l : List ℚ) :
    ∀ (v : ℚ), l.foldl max v = v ∨ l.foldl max v ∈ l := by
  induction l with
  | nil => intro v; simp
  | cons x xs ih =>
    intro v
    simp only [List.foldl_cons]
    rcases ih (max v x) with h | h
    · rcases max_choice v x with hvx | hvx
      · left; rw [h, hvx]
      · right; rw [h, hvx]; exact List.mem_cons_self _ _
    · right; exact List.mem_cons_of_mem _ h

theorem max_value_spec (m : List (String × ℚ)) (hm : m ≠ []) :
    (∃ e ∈ m, e.2 = max_value m) ∧ ∀ e ∈ m, e.2 ≤ max_value m := by
  match m with
  | [] => exact absurd rfl hm
  | e :: rest =>
    unfold max_value
    constructor
    · rcases foldl_max_mem (rest.map (·.2)) e.2 with h | h
      · exact ⟨e, List.mem_cons_self _ _, h.symm⟩
      · obtain ⟨e', he', hv⟩ := List.mem_map.mp h
        exact ⟨e', List.mem_cons_of_mem _ he', hv⟩
    · intro f hf
      rcases List.mem_cons.mp hf with rfl | hf'
      · exact (foldl_max_le _ _).1
      · exact (foldl_max_le _ _).2 _ (List.mem_map_of_mem _ hf')

theorem normalize_scores_eq (m : List (String × ℚ)) (hm : m ≠ []) :
    normalize_scores m = m.map (fun e => (e.1, e.2 / max_value m)) := by
  match m with
  | [] => exact absurd rfl hm
  | e :: rest => rfl

/-! ## Claim C5 — weighted mode -/

/-- C5 amended: each game's raw score is the sum, over every mention of
the game (one per source × category × key occurrence, with
multiplicity), of the mentioning source's weight — a source mentioning
a game in several categories contributes once per mention, not once
per game; the raw scores are then divided by the maximum raw score, so
some game scores exactly 1, and the output is sorted by normalized
weight descending. -/
theorem C5_weighted_combination (analyses : List (String × LLMAnalysis))
    (hne : mentioned_games analyses ≠ []) :
    (∀ g, (dict_find (game_scores analyses) g).getD 0 = mention_weight_sum analyses g) ∧
    (weighted_combination analyses).confidence_scores =
      (game_scores analyses).map
        (fun e => (e.1, e.2 / max_value (game_scores analyses))) ∧
    (∃ e ∈ (weighted_combination analyses).confidence_scores, e.2 = 1) ∧
    (weighted_combination analyses).weighted_games.Pairwise (fun a b => b.2 ≤ a.2) := by
  have hgs : game_scores analyses ≠ [] := by
    intro hnil
    have hk := game_scores_keys analyses
    rw [hnil] at hk
    cases hmg : mentioned_games analyses with
    | nil => exact hne hmg
    | cons x xs =>
      rw [hmg] at hk
      simp [keysOf, dedupFirstAux] at hk
  refine ⟨game_scores_value analyses, ?_, ?_, ?_⟩
  · unfold weighted_combination
    exact normalize_scores_eq _ hgs
  · obtain ⟨⟨e, he, hev⟩, _⟩ := max_value_spec _ hgs
    have hpos : 0 < e.2 := game_scores_pos analyses e he
    refine ⟨(e.1, e.2 / max_value (game_scores analyses)), ?_, ?_⟩
    · unfold weighted_combination
      rw [normalize_scores_eq _ hgs]
      exact List.mem_map_of_mem _ he
    · have hmax : max_value (game_scores analyses) ≠ 0 := by
        rw [← hev]; exact ne_of_gt hpos
      simp only
      rw [hev]
      exact div_self hmax
  · unfold weighted_combination
    exact sortByDesc_sorted _ _

/-- Witness for C5 at `cex_weighted`: a game scores exactly 1. -/
theorem C5_weighted_combination_witness :
    ∃ e ∈ (weighted_combination cex_weighted).confidence_scores, e.2 = 1 :=
  (C5_weighted_combination cex_weighted (by decide)).2.2.1

/-- Counterexample to C5 as stated: with a single source (`grok`,
weight 0.4) mentioning `KC@NYG` in two categories and `DAL@CHI` in one,
the source gives `DAL@CHI` the normalized score `0.4/0.8 = 1/2`,
whereas the claim's once-per-game reading would give every mentioned
game the same summed weight and hence normalized score 1. -/
theorem C5_counterexample :
    (dict_find (weighted_combination cex_weighted).confidence_scores "DAL@CHI").getD 0
        = 1 / 2 ∧
    claim_weighted_norm cex_weighted "DAL@CHI" = 1 ∧ ¬ ((1 / 2 : ℚ) = 1) := by
  refine ⟨?_, ?_, by norm_num⟩
  · simp +decide [weighted_combination, normalize_scores, game_scores, weighted_pairs,
      analysis_mentions, section_games, llm_weight, add_score, max_value, dict_find,
      cex_weighted]
    norm_num [max_def]
  · simp +decide [claim_weighted_norm, claim_weighted_raw, mentioned_games,
      mention_pairs, analysis_mentions, section_games, llm_weight, dedupFirstAux,
      max_value, cex_weighted]
    norm_num [max_def]

/-! ## Claim C6 — single-source combination -/

theorem mentioned_games_singleton (name : String) (a : LLMAnalysis) :
    mentioned_games [(name, a)] = analysis_mentions a := by
  have hcomp : ((fun x : String × String => x.1) ∘ fun g => (g, name)) = id := rfl
  simp [mentioned_games, mention_pairs, List.map_map, hcomp]

/-- C6 amended: `combine_analyses` does not satisfy the identity law.
With exactly one source, consensus mode returns only the games that
source itself mentions more than once (in particular, nothing when
every game is mentioned once), and best mode returns only the source's
de-duplicated `contrarian_opportunities` — never the source's own
games/data unchanged. -/
theorem C6_singleton_combination (name : String) (a : LLMAnalysis) :
    combine_analyses [(name, a)] "consensus" =
      .ok (.consensus ((dedupFirstAux [] (analysis_mentions a)).filter
        (fun g => 1 < (analysis_mentions a).count g))) ∧
    combine_analyses [(name, a)] "best" =
      .ok (.best (dedupFirstAux [] (contrarian_opps a))) := by
  constructor
  · have h := consensus_combination_eq [(name, a)]
    rw [mentioned_games_singleton] at h
    simp [combine_analyses, h]
  · simp [combine_analyses, best_combination]

/-- Counterexample to C6 as stated: a single source mentioning one game
once gets an empty consensus output, not its own data back. -/
theorem C6_counterexample :
    consensus_combination [("grok", cex_identity)] = [] ∧
    analysis_mentions cex_identity = ["KC@NYG"] ∧
    ¬ (([] : List String) = ["KC@NYG"]) := by
  refine ⟨by decide, by decide, by decide⟩

/-! ## Claim C8 — malformed game identifiers -/

theorem pySplitAt_ne_nil : ∀ (l : List Char), pySplitAt l ≠ [] := by
  intro l
  induction l with
  | nil => simp [pySplitAt]
  | cons c rest ih =>
    simp only [pySplitAt]
    by_cases hc : c = '@'
    · simp [hc]
    · rw [if_neg hc]
      cases h : pySplitAt rest with
      | nil => simp
      | cons p ps => simp

theorem pySplitAt_length : ∀ (l : List Char), (pySplitAt l).length = l.count '@' + 1 := by
  intro l
  induction l with
  | nil => simp [pySplitAt]
  | cons c rest ih =>
    simp only [pySplitAt]
    by_cases hc : c = '@'
    · subst hc
      simp [List.count_cons, ih]
    · rw [if_neg hc]
      cases h : pySplitAt rest with
      | nil => exact absurd h (pySplitAt_ne_nil rest)
      | cons p ps =>
        have hlen := ih
        rw [h] at hlen
        simp only [List.length_cons] at hlen ⊢
        have hcc : ¬ ('@' = c) := fun hcc => hc hcc.symm
        simp [List.count_cons, hcc]
        omega

/-- C8 amended: a game string containing no `'@'` is silently skipped
— no pick and no error; a game with exactly one `'@'` always yields a
pick, even when a team token is empty or unrated (the rating silently
defaults to 50); a game with two or more `'@'` raises the untyped
unpacking `ValueError`, not a typed `MalformedGameIdentifier` (no such
error type exists in the source). -/
theorem C8_malformed_game_handling :
    (∀ (ratings : List (String × ℚ)) (game : List Char), '@' ∉ game →
        process_balanced_game ratings game = .ok none ∧
        process_protective_game ratings game = .ok none) ∧
    (∀ (ratings : List (String × ℚ)) (game : List Char), game.count '@' = 1 →
        ∃ p, process_balanced_game ratings game = .ok (some p)) ∧
    (∀ (ratings : List (String × ℚ)) (game : List Char), 2 ≤ game.count '@' →
        process_balanced_game ratings game =
          .error "ValueError: too many values to unpack") ∧
    (∀ (ratings : List (String × ℚ)) (team : String),
        ratings.find? (fun e => e.1 == team) = none → dictGet ratings team 50 = 50) := by
  refine ⟨?_, ?_, ?_, ?_⟩
  · intro ratings game h
    unfold process_balanced_game process_protective_game
    rw [if_neg h, if_neg h]
    exact ⟨rfl, rfl⟩
  · intro ratings game h
    have hmem : '@' ∈ game := by
      have : 0 < game.count '@' := by omega
      exact List.count_pos_iff.mp this
    have hs := pySplitAt_length game
    rw [h] at hs
    match hsp : pySplitAt game with
    | [] => exact absurd hsp (pySplitAt_ne_nil game)
    | [x] => rw [hsp] at hs; simp at hs
    | x :: y :: z :: zs => rw [hsp] at hs; simp at hs
    | [away, home] =>
      unfold process_balanced_game
      rw [if_pos hmem, hsp]
      dsimp only
      have hd : (0 : ℚ) ≤ |dictGet ratings ⟨home⟩ 50 + 3 - dictGet ratings ⟨away⟩ 50| * 1.5 := by
        positivity
      have h0 : 0 ≤ pyMin 35 (|dictGet ratings ⟨home⟩ 50 + 3 - dictGet ratings ⟨away⟩ 50| * 1.5) := by
        unfold pyMin
        split_ifs with hle
        · norm_num
        · exact hd
      have h35 : pyMin 35 (|dictGet ratings ⟨home⟩ 50 + 3 - dictGet ratings ⟨away⟩ 50| * 1.5) ≤ 35 := by
        unfold pyMin
        split_ifs with hle
        · norm_num
        · linarith
      unfold mkPick
      rw [if_neg (by norm_num : ¬ ((1 : ℤ) < 1 ∨ (1 : ℤ) > 20))]
      rw [if_neg ?hconf]
      case hconf =>
        rintro ⟨-, hor⟩
        simp only [Option.getD_some] at hor
        rcases hor with hlt | hgt
        · linarith
        · linarith
      exact ⟨_, rfl⟩
  · intro ratings game h
    have hmem : '@' ∈ game := by
      have : 0 < game.count '@' := by omega
      exact List.count_pos_iff.mp this
    have hs := pySplitAt_length game
    match hsp : pySplitAt game with
    | [] => exact absurd hsp (pySplitAt_ne_nil game)
    | [x] => rw [hsp] at hs; simp at hs; omega
    | [away, home] => rw [hsp] at hs; simp at hs; omega
    | x :: y :: z :: zs =>
      unfold process_balanced_game
      rw [if_pos hmem, hsp]
  · intro ratings team h
    unfold dictGet
    rw [h]
    rfl

/-- Witness for C8 at concrete games: no separator is silently skipped,
one separator with an empty away token still yields a pick, two
separators raise the unpacking error, and an unknown team defaults. -/
theorem C8_malformed_game_handling_witness :
    (process_balanced_game [] "NOSEPARATOR".toList = .ok none ∧
      process_protective_game [] "NOSEPARATOR".toList = .ok none) ∧
    (∃ p, process_balanced_game [] "@NYG".toList = .ok (some p)) ∧
    process_balanced_game [] "A@B@C".toList = .error "ValueError: too many values to unpack" ∧
    dictGet [] "ZZZ" 50 = 50 :=
  ⟨C8_malformed_game_handling.1 [] _ (by decide),
   C8_malformed_game_handling.2.1 [] _ (by decide),
   C8_malformed_game_handling.2.2.1 [] _ (by decide),
   C8_malformed_game_handling.2.2.2 [] "ZZZ" (by decide)⟩

/-- Counterexample to C8 as stated: a game with no `'@'` is not
rejected — balanced generation returns `ok []` with no error — and a
game whose away side is empty is accepted and scored rather than
rejected. -/
theorem C8_counterexample :
    generate_balanced_picks [] ["NOSEPARATOR".toList] = .ok [] ∧
    (process_balanced_game [] "@NYG".toList).isOk = true ∧
    process_balanced_game [] "@NYG".toList ≠ .ok none := by
  refine ⟨by rfl, ?_, ?_⟩
  · have h : process_balanced_game [] "@NYG".toList =
        .ok (some ⟨"@NYG", "NYG", 1, some (109 / 2), some 3, some 50⟩) := by
      simp +decide only [process_balanced_game, pySplitAt, dictGet, mkPick, pyTruthy, pyMin]
      norm_num
      rfl
    rw [h]
    rfl
  · have h : process_balanced_game [] "@NYG".toList =
        .ok (some ⟨"@NYG", "NYG", 1, some (109 / 2), some 3, some 50⟩) := by
      simp +decide only [process_balanced_game, pySplitAt, dictGet, mkPick, pyTruthy, pyMin]
      norm_num
      rfl
    rw [h]
    simp

end FootballPool
